import Mathlib

/-!
Verification development for the pitch-deck generator (`generate.py`).

The script's logic: load a JSON configuration for a client slug, flatten the
nested dictionary to dot-notation keys with `str`-coerced values, replace
`\x7b\x7bkey\x7d\x7d` placeholders in an HTML template by sequential
`str.replace` calls, scan the result for leftover placeholders with the regex
`\\\x7b\\\x7b[^\x7d]+\\\x7d\\\x7d`, warn about them (sorted, distinct), write
the output page, and mirror an audio directory.

The embedding below models JSON values (numbers as integers), Python dict
semantics (insertion-ordered association lists, duplicate-free keys,
last-write-wins updates), Python `str`/`repr` coercion for the value shapes
that occur, `str.replace` (leftmost, non-overlapping, no rescan of the
inserted replacement), the placeholder regex scan, and the run flow of
`generate` as a pure function from an abstract environment to a trace of
observable events plus an optional failure.
-/

namespace PitchDecks

/- JSON-like configuration values as produced by `json.load`.  Numbers are
modelled as integers; dictionaries and arrays are modelled by the mutual
types `EntryList` / `ValueList` (kept non-nested so that all recursions are
structural). -/
mutual

inductive Value : Type where
  | str (s : String) : Value
  | num (n : Int) : Value
  | boolean (b : Bool) : Value
  | null : Value
  | arr (xs : ValueList) : Value
  | dict (d : EntryList) : Value

inductive ValueList : Type where
  | nil : ValueList
  | cons (v : Value) (rest : ValueList) : ValueList

inductive EntryList : Type where
  | nil : EntryList
  | cons (key : String) (v : Value) (rest : EntryList) : EntryList

end

instance : Inhabited Value := ⟨Value.null⟩

instance : Inhabited ValueList := ⟨ValueList.nil⟩

instance : Inhabited EntryList := ⟨EntryList.nil⟩

/- Python `repr` of a value, and its mapping over array elements and
dictionary entries (the forms `str()` delegates to for non-string values). -/
mutual

def pyRepr : Value → String
  | Value.str s => "'" ++ s ++ "'"
  | Value.num n => toString n
  | Value.boolean b => if b then "True" else "False"
  | Value.null => "None"
  | Value.arr xs => "[" ++ pyReprSeq xs ++ "]"
  | Value.dict d => "\x7b" ++ pyReprEntries d ++ "\x7d"

def pyReprSeq : ValueList → String
  | ValueList.nil => ""
  | ValueList.cons v ValueList.nil => pyRepr v
  | ValueList.cons v rest => pyRepr v ++ ", " ++ pyReprSeq rest

def pyReprEntries : EntryList → String
  | EntryList.nil => ""
  | EntryList.cons k v EntryList.nil => "'" ++ k ++ "': " ++ pyRepr v
  | EntryList.cons k v rest => "'" ++ k ++ "': " ++ pyRepr v ++ ", " ++ pyReprEntries rest

end

/-- Python `str` coercion: a string is itself; every other value shape renders
as its `repr`.  Total: coercion never fails, whatever the leaf is. -/
def pyStr : Value → String
  | Value.str s => s
  | Value.num n => toString n
  | Value.boolean b => if b then "True" else "False"
  | Value.null => "None"
  | Value.arr xs => "[" ++ pyReprSeq xs ++ "]"
  | Value.dict d => "\x7b" ++ pyReprEntries d ++ "\x7d"

/-- `isinstance(value, dict)` test. -/
def Value.isDict : Value → Bool
  | Value.dict _ => true
  | _ => false

/-- `f"\x7bprefix\x7d.\x7bkey\x7d" if prefix else key` from `flatten`. -/
def joinKey (pre key : String) : String :=
  if pre = "" then key else pre ++ "." ++ key

/-- Python dict single-key assignment `result[k] = v` on an
insertion-ordered association list: an existing key keeps its position and
gets the new value, a new key is appended. -/
def dictInsert (m : List (String × String)) (k v : String) : List (String × String) :=
  if m.any (fun p => p.1 == k) then
    m.map (fun p => if p.1 == k then (k, v) else p)
  else
    m ++ [(k, v)]

/-- Python `result.update(sub)`: assign each entry of `sub` in order. -/
def dictUpdate (m sub : List (String × String)) : List (String × String) :=
  sub.foldl (fun acc p => dictInsert acc p.1 p.2) m

/-- The body of `flatten` from `generate.py`: iterate over the entries,
accumulating into the `result` dict; a dict value recurses under the joined
key and is merged with `result.update`, any other value is `str`-coerced and
assigned at the joined key. -/
def flattenGo : EntryList → String → List (String × String) → List (String × String)
  | EntryList.nil, _, acc => acc
  | EntryList.cons key value rest, pre, acc =>
    match value with
    | Value.dict d2 => flattenGo rest pre (dictUpdate acc (flattenGo d2 (joinKey pre key) []))
    | v => flattenGo rest pre (dictInsert acc (joinKey pre key) (pyStr v))

/-- `flatten(d, prefix="")`: start from the empty `result` dict. -/
def flatten (d : EntryList) (pre : String) : List (String × String) :=
  flattenGo d pre []

/-- Root-to-leaf paths of a nested document, paired with the leaf values, in
document order.  This is the spec-side notion of "root-to-leaf dotted paths":
a dict value extends the path, anything else is a leaf; an empty nested dict
has no leaves. -/
def leaves : EntryList → List (List String × Value)
  | EntryList.nil => []
  | EntryList.cons k (Value.dict d) rest =>
    (leaves d).map (fun pv => (k :: pv.1, pv.2)) ++ leaves rest
  | EntryList.cons k v rest => ([k], v) :: leaves rest

/-- The key contains no `.` character. -/
def noDotStr (k : String) : Bool :=
  k.data.all (fun c => !(c == '.'))

/-- Some entry of the dict has this key. -/
def keyMem (k : String) : EntryList → Bool
  | EntryList.nil => false
  | EntryList.cons k2 _ rest => k == k2 || keyMem k rest

/-- Well-formed configuration documents for the dotted-path invariants: at
every level keys are duplicate-free (true of every Python dict), nonempty and
dot-free (the conditions under which dotted-path composition is injective). -/
def goodDoc : EntryList → Bool
  | EntryList.nil => true
  | EntryList.cons k (Value.dict d) rest =>
    !(k == "") && noDotStr k && !(keyMem k rest) && goodDoc d && goodDoc rest
  | EntryList.cons k _ rest =>
    !(k == "") && noDotStr k && !(keyMem k rest) && goodDoc rest

/-- Every key on the path is nonempty and dot-free. -/
def pathOk (p : List String) : Bool :=
  p.all (fun k => !(k == "") && noDotStr k)

/-- The dotted key a root-to-leaf path produces, starting from a prefix:
fold `joinKey` along the path. -/
def joinAll (pre : String) (p : List String) : String :=
  p.foldl joinKey pre

/-- The `"." ++ key` tail segments a path contributes after a nonempty
prefix. -/
def tailStr : List String → String
  | [] => ""
  | k :: rest => "." ++ k ++ tailStr rest

/-- The placeholder token text `\x7b\x7bkey\x7d\x7d` for a key, as characters. -/
def tok (k : List Char) : List Char :=
  '{' :: '{' :: (k ++ ['}', '}'])

/-- Python `str.replace(pat, rep)` for a nonempty pattern: scan left to
right; at a match, emit the replacement and continue after the matched
pattern (the inserted replacement is never rescanned); otherwise move one
character forward.  An empty pattern replaces nothing here (the program only
ever uses the nonempty patterns `tok k`). -/
def replaceAll (pat rep : List Char) (s : List Char) : List Char :=
  match s with
  | [] => []
  | c :: rest =>
    if 0 < pat.length ∧ pat.isPrefixOf (c :: rest) = true then
      rep ++ replaceAll pat rep (rest.drop (pat.length - 1))
    else
      c :: replaceAll pat rep rest
termination_by s.length
decreasing_by
  · simp only [List.length_cons]
    have := List.length_drop (pat.length - 1) rest
    omega
  · simp only [List.length_cons]
    omega

/-- The placeholder-replacement loop of `generate`: for each key/value pair
of the flattened mapping in order, `html = html.replace(tok key, value)`. -/
def substitute (m : List (List Char × List Char)) (s : List Char) : List Char :=
  m.foldl (fun h kv => replaceAll (tok kv.1) kv.2 h) s

/-- Does `pat` occur as a contiguous substring of `s`? -/
def containsSub (pat : List Char) : List Char → Bool
  | [] => pat.isEmpty
  | c :: rest => pat.isPrefixOf (c :: rest) || containsSub pat rest

/-- Neither of the two brace characters. -/
def noBraceC (c : Char) : Bool :=
  !(c == '{') && !(c == '}')

/-- The text contains no brace character. -/
def brFree (s : List Char) : Bool :=
  s.all noBraceC

/-- A syntactic view of a template text: literal characters interleaved with
placeholder holes.  `render` maps the view back to the underlying text. -/
inductive Tmpl : Type where
  | nil : Tmpl
  | chr (c : Char) (t : Tmpl) : Tmpl
  | hole (k : List Char) (t : Tmpl) : Tmpl

/-- The text of a template view. -/
def Tmpl.render : Tmpl → List Char
  | Tmpl.nil => []
  | Tmpl.chr c t => c :: t.render
  | Tmpl.hole k t => tok k ++ t.render

/-- A well-formed template view: literal characters are brace-free and every
hole key is nonempty and brace-free, so tokens are exactly the holes. -/
def Tmpl.ok : Tmpl → Bool
  | Tmpl.nil => true
  | Tmpl.chr c t => noBraceC c && t.ok
  | Tmpl.hole k t => !k.isEmpty && brFree k && t.ok

/-- Splice a character list into a template view as literal characters. -/
def appendChars (v : List Char) (t : Tmpl) : Tmpl :=
  v.foldr Tmpl.chr t

/-- Replace every hole with exactly this key by the literal characters of
`v`; other holes are untouched. -/
def Tmpl.substOne (k v : List Char) : Tmpl → Tmpl
  | Tmpl.nil => Tmpl.nil
  | Tmpl.chr c t => Tmpl.chr c (t.substOne k v)
  | Tmpl.hole k2 t =>
    if k2 = k then appendChars v (t.substOne k v) else Tmpl.hole k2 (t.substOne k v)

/-- First-match lookup in an association list of keys and values. -/
def lookupL (k : List Char) (m : List (List Char × List Char)) : Option (List Char) :=
  (m.find? (fun kv => kv.1 == k)).map (fun kv => kv.2)

/-- Simultaneous substitution on the template view.  Modelled from the spec:
"the template text with every placeholder whose key exists in the flattened
mapping replaced by that key's string value.  Tokens with no matching key are
left verbatim", with each value inserted verbatim as literal characters. -/
def Tmpl.psubst (m : List (List Char × List Char)) : Tmpl → Tmpl
  | Tmpl.nil => Tmpl.nil
  | Tmpl.chr c t => Tmpl.chr c (t.psubst m)
  | Tmpl.hole k t =>
    match lookupL k m with
    | some v => appendChars v (t.psubst m)
    | none => Tmpl.hole k (t.psubst m)

/-- The hole keys of a template view, in order. -/
def Tmpl.holeKeys : Tmpl → List (List Char)
  | Tmpl.nil => []
  | Tmpl.chr _ t => t.holeKeys
  | Tmpl.hole k t => k :: t.holeKeys

/-- The mapping conditions for the substitution theorems: every key nonempty
and brace-free, every value brace-free. -/
def mOk (m : List (List Char × List Char)) : Bool :=
  m.all (fun kv => !kv.1.isEmpty && brFree kv.1 && brFree kv.2)

/-- The scan `re.findall(r"\\\x7b\\\x7b[^\x7d]+\\\x7d\\\x7d", html)`: find,
left to right and without overlap, every maximal-interior match of
`\x7b\x7b`, one or more non-`\x7d` characters, `\x7d\x7d`, returning the
matched token texts in order. -/
def findTokens (s : List Char) : List (List Char) :=
  match s with
  | '{' :: '{' :: rest =>
    let interior := rest.takeWhile (fun c => !(c == '}'))
    if interior.isEmpty = false ∧ (rest.drop interior.length).take 2 = ['}', '}'] then
      ('{' :: '{' :: (interior ++ ['}', '}'])) :: findTokens (rest.drop (interior.length + 2))
    else
      findTokens ('{' :: rest)
  | _ :: rest => findTokens rest
  | [] => []
termination_by s.length
decreasing_by
  · simp only [List.length_cons]
    have h := List.length_drop ((List.takeWhile (fun c => !(c == '}')) rest).length + 2) rest
    omega
  · simp only [List.length_cons]
    omega
  · simp only [List.length_cons]
    omega

/-- Lexicographic comparison of character lists by code point, the order
Python's `sorted` uses on these token strings. -/
def listCharLe : List Char → List Char → Bool
  | [], _ => true
  | _ :: _, [] => false
  | a :: as, b :: bs => if a = b then listCharLe as bs else decide (a < b)

/-- `sorted(set(remaining))`: the distinct unresolved tokens in sorted
order. -/
def report (s : List Char) : List (List Char) :=
  ((findTokens s).dedup).mergeSort listCharLe

/-- The file-system facts `generate` consults: which client has a
configuration document, the template text if the template file exists, and
which client has an audio source directory. -/
structure Env : Type where
  configs : String → Option EntryList
  templateText : Option (List Char)
  audioSrc : String → Bool

/-- The two validation failures (`sys.exit(1)` after the corresponding
error message). -/
inductive RunError : Type where
  | ConfigNotFound : RunError
  | TemplateNotFound : RunError
deriving DecidableEq

/-- Observable side effects of a run, in order. -/
inductive Event : Type where
  | warnUnresolved (toks : List (List Char)) : Event
  | writeFile (path : String) (content : List Char) : Event
  | copyAudio (slug : String) : Event
  | noteNoAudio (slug : String) : Event
deriving DecidableEq

/-- The flattened mapping as character lists, ready for `substitute`. -/
def toPairsChars (flat : List (String × String)) : List (List Char × List Char) :=
  flat.map (fun kv => (kv.1.data, kv.2.data))

/-- The rendered page for a configuration document and a template text:
flatten, then run the replacement loop. -/
def renderOf (config : EntryList) (tmpl : List Char) : List Char :=
  substitute (toPairsChars (flatten config "")) tmpl

/-- The output page path for a client. -/
def outPath (slug : String) : String :=
  "clients/" ++ slug ++ "/index.html"

/-- The body of `generate(slug)` over an abstract environment: check the
configuration resource, then the template resource (each missing one aborts
with no events); otherwise flatten, substitute, warn about unresolved
placeholders if any, write the page, and copy the audio directory or note
its absence. -/
def run (env : Env) (slug : String) : List Event × Option RunError :=
  match env.configs slug with
  | none => ([], some RunError.ConfigNotFound)
  | some config =>
    match env.templateText with
    | none => ([], some RunError.TemplateNotFound)
    | some tmpl =>
      let html := renderOf config tmpl
      let warnEvents :=
        if (findTokens html).isEmpty then [] else [Event.warnUnresolved (report html)]
      let audioEvents :=
        if env.audioSrc slug then [Event.copyAudio slug] else [Event.noteNoAudio slug]
      (warnEvents ++ [Event.writeFile (outPath slug) html] ++ audioEvents, none)

/-- The content written to the output page by a run, if any. -/
def writtenPage (r : List Event × Option RunError) : Option (List Char) :=
  (r.1.filterMap (fun e =>
    match e with
    | Event.writeFile _ content => some content
    | _ => none)).head?

/-- The document `\x7b"a.b": 1, "a": \x7b"b": 2\x7d\x7d`: a key containing a
dot makes two distinct root-to-leaf paths produce the same dotted key. -/
def exDoc : EntryList :=
  EntryList.cons "a.b" (Value.num 1)
    (EntryList.cons "a"
      (Value.dict (EntryList.cons "b" (Value.num 2) EntryList.nil))
      EntryList.nil)

/-- The document `\x7b"brand": \x7b"primary": "#fff"\x7d, "name": "Acme"\x7d`,
a representative well-formed configuration. -/
def exGood : EntryList :=
  EntryList.cons "brand"
    (Value.dict (EntryList.cons "primary" (Value.str "#fff") EntryList.nil))
    (EntryList.cons "name" (Value.str "Acme") EntryList.nil)

/-- Mapping `a ↦ \x7b\x7bb\x7d\x7d, b ↦ X` in insertion order. -/
def mSeq : List (List Char × List Char) :=
  [(['a'], tok ['b']), (['b'], ['X'])]

/-- The same mapping with the two items in the opposite order. -/
def mSeqRev : List (List Char × List Char) :=
  [(['b'], ['X']), (['a'], tok ['b'])]

/-- Mapping `b ↦ \x7b\x7ba\x7d\x7d, a ↦ X` in insertion order. -/
def mHop : List (List Char × List Char) :=
  [(['b'], tok ['a']), (['a'], ['X'])]

/-- Mapping `a ↦ X, b ↦ \x7b\x7ba\x7d\x7d` in insertion order. -/
def mIdem : List (List Char × List Char) :=
  [(['a'], ['X']), (['b'], tok ['a'])]

/-- The template view of `\x7b\x7bx\x7d\x7d \x7b\x7by\x7d\x7d`. -/
def tmplXY : Tmpl :=
  Tmpl.hole ['x'] (Tmpl.chr ' ' (Tmpl.hole ['y'] Tmpl.nil))

/-- The mapping `\x7b"x": "1"\x7d`. -/
def mX : List (List Char × List Char) :=
  [(['x'], ['1'])]

/-- The mapping `\x7b"x": "1", "y": "2"\x7d`. -/
def mXY : List (List Char × List Char) :=
  [(['x'], ['1']), (['y'], ['2'])]

/-- An environment with no configuration files at all. -/
def envNone : Env :=
  ⟨fun _ => none, some [], fun _ => false⟩

/-- An environment with a configuration for every client but no template. -/
def envNoTmpl : Env :=
  ⟨fun _ => some exGood, none, fun _ => false⟩

/-- An environment whose template is the unmatched token
`\x7b\x7by\x7d\x7d`, with no audio directory. -/
def envW : Env :=
  ⟨fun _ => some exGood, some (tok ['y']), fun _ => false⟩

/-- The same environment as `envW` except every client has an audio source
directory. -/
def envW2 : Env :=
  ⟨fun _ => some exGood, some (tok ['y']), fun _ => true⟩

/-! ### String and dotted-path lemmas -/

lemma strExt {s t : String} (h : s.data = t.data) : s = t :=
  congrArg String.mk h

lemma dotLen : (".".length : Nat) = 1 := rfl

lemma strLenPos {s : String} (h : s ≠ "") : 0 < s.length := by
  cases s with
  | mk d =>
    cases d with
    | nil => exact absurd rfl h
    | cons c cs => simp [String.length]

lemma neEmptyOfLen {s : String} (h : 0 < s.length) : s ≠ "" := by
  intro he
  rw [he] at h
  simp at h

lemma joinKey_len (pre k : String) (hk : k ≠ "") :
    pre.length + 1 ≤ (joinKey pre k).length := by
  unfold joinKey
  split
  · next hpre =>
    subst hpre
    have := strLenPos hk
    simpa using this
  · have h1 : (pre ++ "." ++ k).length = pre.length + 1 + k.length := by
      simp [String.length_append, dotLen]
    omega

lemma joinKey_ne {pre k : String} (hk : k ≠ "") : joinKey pre k ≠ "" := by
  apply neEmptyOfLen
  have := joinKey_len pre k hk
  omega

lemma joinAll_cons (pre k : String) (p : List String) :
    joinAll pre (k :: p) = joinAll (joinKey pre k) p := rfl

lemma joinAll_tail (p : List String) :
    ∀ pre : String, pre ≠ "" → joinAll pre p = pre ++ tailStr p := by
  induction p with
  | nil => intro pre _; simp [joinAll, tailStr]
  | cons k r ih =>
    intro pre hpre
    rw [joinAll_cons]
    have hx : joinKey pre k = pre ++ "." ++ k := by simp [joinKey, hpre]
    have hne : joinKey pre k ≠ "" := by
      rw [hx]
      apply neEmptyOfLen
      simp [String.length_append, dotLen]
    rw [ih _ hne, hx, tailStr]
    simp [String.append_assoc]

lemma joinAll_split (pre k : String) (p : List String) (hk : k ≠ "") :
    joinAll pre (k :: p) = joinKey pre k ++ tailStr p := by
  rw [joinAll_cons]
  exact joinAll_tail p _ (joinKey_ne hk)

lemma pathOk_cons {k : String} {p : List String} (h : pathOk (k :: p) = true) :
    k ≠ "" ∧ noDotStr k = true ∧ pathOk p = true := by
  simp [pathOk, List.all_cons, Bool.and_eq_true] at h ⊢
  tauto

lemma joinAll_len (p : List String) :
    ∀ pre : String, pathOk p = true → pre.length + p.length ≤ (joinAll pre p).length := by
  induction p with
  | nil => intro pre _; simp [joinAll]
  | cons k r ih =>
    intro pre h
    obtain ⟨hk, _, hr⟩ := pathOk_cons h
    rw [joinAll_cons]
    have h1 := joinKey_len pre k hk
    have h2 := ih (joinKey pre k) hr
    simp only [List.length_cons]
    omega

lemma cancelDotFree :
    ∀ (u1 u2 z1 z2 : List Char),
      (∀ c ∈ u1, c ≠ '.') → (∀ c ∈ u2, c ≠ '.') →
      (z1 = [] ∨ z1.head? = some '.') → (z2 = [] ∨ z2.head? = some '.') →
      u1 ++ z1 = u2 ++ z2 → u1 = u2 ∧ z1 = z2 := by
  intro u1
  induction u1 with
  | nil =>
    intro u2 z1 z2 _ hu2 hz1 _ h
    cases u2 with
    | nil => simpa using h
    | cons c u2' =>
      exfalso
      simp only [List.nil_append, List.cons_append] at h
      subst h
      rcases hz1 with h1 | h1
      · simp at h1
      · simp at h1
        exact hu2 c (by simp) h1
  | cons c1 u1' ih =>
    intro u2 z1 z2 hu1 hu2 hz1 hz2 h
    cases u2 with
    | nil =>
      exfalso
      simp only [List.cons_append, List.nil_append] at h
      rcases hz2 with h2 | h2
      · subst h2; simp at h
      · rw [← h] at h2
        simp at h2
        exact hu1 c1 (by simp) h2
    | cons c2 u2' =>
      simp only [List.cons_append, List.cons.injEq] at h
      obtain ⟨hc, ht⟩ := h
      have := ih u2' z1 z2 (fun c hc' => hu1 c (by simp [hc'])) (fun c hc' => hu2 c (by simp [hc'])) hz1 hz2 ht
      exact ⟨by simp [hc, this.1], this.2⟩

lemma noDotStr_chars {k : String} (h : noDotStr k = true) : ∀ c ∈ k.data, c ≠ '.' := by
  simp only [noDotStr, List.all_eq_true, Bool.not_eq_true', beq_eq_false_iff_ne, ne_eq] at h
  exact h

lemma tailStr_head (p : List String) :
    (tailStr p).data = [] ∨ (tailStr p).data.head? = some '.' := by
  cases p with
  | nil => left; rfl
  | cons k r =>
    right
    show (("." ++ k ++ tailStr r)).data.head? = some '.'
    simp [String.data_append]

lemma tailStr_inj :
    ∀ p1 p2 : List String, pathOk p1 = true → pathOk p2 = true →
      tailStr p1 = tailStr p2 → p1 = p2 := by
  intro p1
  induction p1 with
  | nil =>
    intro p2 _ h2 h
    cases p2 with
    | nil => rfl
    | cons k r =>
      exfalso
      have := congrArg String.data h
      simp [tailStr, String.data_append] at this
  | cons k1 r1 ih =>
    intro p2 h1 h2 h
    cases p2 with
    | nil =>
      exfalso
      have := congrArg String.data h
      simp [tailStr, String.data_append] at this
    | cons k2 r2 =>
      obtain ⟨hk1, hd1, hr1⟩ := pathOk_cons h1
      obtain ⟨hk2, hd2, hr2⟩ := pathOk_cons h2
      have hdd := congrArg String.data h
      simp only [tailStr, String.data_append] at hdd
      have hdd' : k1.data ++ (tailStr r1).data = k2.data ++ (tailStr r2).data := by
        have : (".".data : List Char) = ['.'] := rfl
        simp [this] at hdd
        simpa [List.append_assoc] using hdd
      have hc := cancelDotFree k1.data k2.data (tailStr r1).data (tailStr r2).data
        (noDotStr_chars hd1) (noDotStr_chars hd2) (tailStr_head r1) (tailStr_head r2) hdd'
      have hk : k1 = k2 := strExt hc.1
      have ht : tailStr r1 = tailStr r2 := strExt hc.2
      rw [hk, ih r2 hr1 hr2 ht]

lemma joinAll_inj (p1 p2 : List String) (pre : String)
    (h1 : pathOk p1 = true) (h2 : pathOk p2 = true)
    (h : joinAll pre p1 = joinAll pre p2) : p1 = p2 := by
  cases p1 with
  | nil =>
    cases p2 with
    | nil => rfl
    | cons k r =>
      exfalso
      have hlen := joinAll_len (k :: r) pre h2
      rw [← h] at hlen
      simp [joinAll] at hlen
  | cons k1 r1 =>
    cases p2 with
    | nil =>
      exfalso
      have hlen := joinAll_len (k1 :: r1) pre h1
      rw [h] at hlen
      simp [joinAll] at hlen
    | cons k2 r2 =>
      obtain ⟨hk1, hd1, hr1⟩ := pathOk_cons h1
      obtain ⟨hk2, hd2, hr2⟩ := pathOk_cons h2
      rw [joinAll_split pre k1 r1 hk1, joinAll_split pre k2 r2 hk2] at h
      have hdd := congrArg String.data h
      by_cases hpre : pre = ""
      · subst hpre
        have hdd' : k1.data ++ (tailStr r1).data = k2.data ++ (tailStr r2).data := by
          simpa [joinKey, String.data_append] using hdd
        have hc := cancelDotFree k1.data k2.data (tailStr r1).data (tailStr r2).data
          (noDotStr_chars hd1) (noDotStr_chars hd2) (tailStr_head r1) (tailStr_head r2) hdd'
        have hk : k1 = k2 := strExt hc.1
        have ht : tailStr r1 = tailStr r2 := strExt hc.2
        rw [hk, tailStr_inj r1 r2 hr1 hr2 ht]
      · have hdd' : k1.data ++ (tailStr r1).data = k2.data ++ (tailStr r2).data := by
          have hdot : (".".data : List Char) = ['.'] := rfl
          simp only [joinKey, if_neg hpre, String.data_append, hdot, List.append_assoc] at hdd
          have := List.append_cancel_left hdd
          simpa using this
        have hc := cancelDotFree k1.data k2.data (tailStr r1).data (tailStr r2).data
          (noDotStr_chars hd1) (noDotStr_chars hd2) (tailStr_head r1) (tailStr_head r2) hdd'
        have hk : k1 = k2 := strExt hc.1
        have ht : tailStr r1 = tailStr r2 := strExt hc.2
        rw [hk, tailStr_inj r1 r2 hr1 hr2 ht]

/-! ### Leaves of well-formed documents -/

lemma goodDoc_dict {k : String} {d rest : EntryList}
    (h : goodDoc (EntryList.cons k (Value.dict d) rest) = true) :
    k ≠ "" ∧ noDotStr k = true ∧ keyMem k rest = false ∧
      goodDoc d = true ∧ goodDoc rest = true := by
  simp only [goodDoc, Bool.and_eq_true, Bool.not_eq_true', beq_eq_false_iff_ne, ne_eq] at h
  tauto

lemma goodDoc_other {k : String} {v : Value} {rest : EntryList} (hv : v.isDict = false)
    (h : goodDoc (EntryList.cons k v rest) = true) :
    k ≠ "" ∧ noDotStr k = true ∧ keyMem k rest = false ∧ goodDoc rest = true := by
  cases v with
  | dict d => simp [Value.isDict] at hv
  | str s =>
    simp only [goodDoc, Bool.and_eq_true, Bool.not_eq_true', beq_eq_false_iff_ne, ne_eq] at h
    tauto
  | num n =>
    simp only [goodDoc, Bool.and_eq_true, Bool.not_eq_true', beq_eq_false_iff_ne, ne_eq] at h
    tauto
  | boolean b =>
    simp only [goodDoc, Bool.and_eq_true, Bool.not_eq_true', beq_eq_false_iff_ne, ne_eq] at h
    tauto
  | null =>
    simp only [goodDoc, Bool.and_eq_true, Bool.not_eq_true', beq_eq_false_iff_ne, ne_eq] at h
    tauto
  | arr xs =>
    simp only [goodDoc, Bool.and_eq_true, Bool.not_eq_true', beq_eq_false_iff_ne, ne_eq] at h
    tauto

lemma leaves_other {k : String} {v : Value} {rest : EntryList} (hv : v.isDict = false) :
    leaves (EntryList.cons k v rest) = ([k], v) :: leaves rest := by
  cases v with
  | dict d => simp [Value.isDict] at hv
  | str s => simp [leaves]
  | num n => simp [leaves]
  | boolean b => simp [leaves]
  | null => simp [leaves]
  | arr xs => simp [leaves]

lemma keyMem_cons (k0 k : String) (v : Value) (rest : EntryList) :
    keyMem k0 (EntryList.cons k v rest) = (k0 == k || keyMem k0 rest) := rfl

lemma flattenGo_other {v : Value} (hv : v.isDict = false)
    (key : String) (rest : EntryList) (pre : String) (acc : List (String × String)) :
    flattenGo (EntryList.cons key v rest) pre acc
      = flattenGo rest pre (dictInsert acc (joinKey pre key) (pyStr v)) := by
  cases v with
  | dict d => simp [Value.isDict] at hv
  | str s => simp [flattenGo]
  | num n => simp [flattenGo]
  | boolean b => simp [flattenGo]
  | null => simp [flattenGo]
  | arr xs => simp [flattenGo]

lemma leaves_head :
    ∀ d : EntryList, ∀ pv ∈ leaves d, ∃ k0 r, pv.1 = k0 :: r ∧ keyMem k0 d = true := by
  intro d
  induction d using leaves.induct with
  | case1 => simp [leaves]
  | case2 k d rest ihd ihr =>
    intro pv hpv
    simp only [leaves, List.mem_append, List.mem_map] at hpv
    rcases hpv with ⟨pv2, _, rfl⟩ | hr
    · exact ⟨k, pv2.1, rfl, by simp [keyMem_cons]⟩
    · obtain ⟨k0, r, he, hm⟩ := ihr pv hr
      exact ⟨k0, r, he, by simp [keyMem_cons, hm]⟩
  | case3 k v rest hside ihr =>
    intro pv hpv
    have hv : v.isDict = false := by
      cases v <;> first | rfl | (exfalso; exact hside _ rfl)
    rw [leaves_other hv] at hpv
    rcases List.mem_cons.mp hpv with rfl | hr
    · exact ⟨k, [], rfl, by simp [keyMem_cons]⟩
    · obtain ⟨k0, r, he, hm⟩ := ihr pv hr
      exact ⟨k0, r, he, by simp [keyMem_cons, hm]⟩

lemma leaves_ok :
    ∀ d : EntryList, goodDoc d = true → ∀ pv ∈ leaves d, pathOk pv.1 = true := by
  intro d
  induction d using leaves.induct with
  | case1 => simp [leaves]
  | case2 k d rest ihd ihr =>
    intro hg pv hpv
    obtain ⟨h1, h2, h3, h4, h5⟩ := goodDoc_dict hg
    simp only [leaves, List.mem_append, List.mem_map] at hpv
    rcases hpv with ⟨pv2, hpv2, rfl⟩ | hr
    · have := ihd h4 pv2 hpv2
      simp only [pathOk, List.all_cons, Bool.and_eq_true] at this ⊢
      refine ⟨⟨?_, h2⟩, this⟩
      simpa using h1
    · exact ihr h5 pv hr
  | case3 k v rest hside ihr =>
    intro hg pv hpv
    have hv : v.isDict = false := by
      cases v <;> first | rfl | (exfalso; exact hside _ rfl)
    obtain ⟨h1, h2, h3, h4⟩ := goodDoc_other hv hg
    rw [leaves_other hv] at hpv
    rcases List.mem_cons.mp hpv with rfl | hr
    · simp only [pathOk, List.all_cons, List.all_nil, Bool.and_eq_true]
      refine ⟨⟨?_, h2⟩, trivial⟩
      simpa using h1
    · exact ihr h4 pv hr

lemma leaves_paths_nodup :
    ∀ d : EntryList, goodDoc d = true → ((leaves d).map Prod.fst).Nodup := by
  intro d
  induction d using leaves.induct with
  | case1 => simp [leaves]
  | case2 k d rest ihd ihr =>
    intro hg
    obtain ⟨h1, h2, h3, h4, h5⟩ := goodDoc_dict hg
    simp only [leaves, List.map_append, List.map_map]
    rw [List.nodup_append]
    refine ⟨?_, ihr h5, ?_⟩
    · have heq : ((leaves d).map (Prod.fst ∘ fun pv => (k :: pv.1, pv.2)))
          = ((leaves d).map Prod.fst).map (fun p => k :: p) := by
        rw [List.map_map]
        rfl
      rw [heq]
      exact (ihd h4).map (fun p q h => by simpa using h)
    · intro p hp hq
      simp only [List.mem_map, Function.comp] at hp hq
      obtain ⟨pv2, _, hpv2⟩ := hp
      obtain ⟨pv', hpv', hfst⟩ := hq
      obtain ⟨k0, r, he, hm⟩ := leaves_head rest pv' hpv'
      rw [hfst] at he
      rw [← hpv2] at he
      have hk : k0 = k := by
        have := List.cons.injEq .. ▸ he
        simp at he
        exact he.1.symm
      rw [hk] at hm
      rw [hm] at h3
      simp at h3
  | case3 k v rest hside ihr =>
    intro hg
    have hv : v.isDict = false := by
      cases v <;> first | rfl | (exfalso; exact hside _ rfl)
    obtain ⟨h1, h2, h3, h4⟩ := goodDoc_other hv hg
    rw [leaves_other hv]
    simp only [List.map_cons]
    rw [List.nodup_cons]
    refine ⟨?_, ihr h4⟩
    intro hmem
    simp only [List.mem_map] at hmem
    obtain ⟨pv', hpv', hfst⟩ := hmem
    obtain ⟨k0, r, he, hm⟩ := leaves_head rest pv' hpv'
    rw [hfst] at he
    have hk : k0 = k := by
      simp at he
      exact he.1.symm
    rw [hk] at hm
    rw [hm] at h3
    simp at h3

lemma mapped_nodup (d : EntryList) (pre : String) (hd : goodDoc d = true) :
    ((leaves d).map (fun pv => joinAll pre pv.1)).Nodup := by
  have h1 : ((leaves d).map fun pv => joinAll pre pv.1)
      = ((leaves d).map Prod.fst).map (fun p => joinAll pre p) := by
    rw [List.map_map]
    rfl
  rw [h1]
  apply List.Nodup.map_on
  · intro x hx y hy hxy
    simp only [List.mem_map] at hx hy
    obtain ⟨pvx, hpvx, rfl⟩ := hx
    obtain ⟨pvy, hpvy, rfl⟩ := hy
    exact joinAll_inj pvx.1 pvy.1 pre (leaves_ok d hd pvx hpvx) (leaves_ok d hd pvy hpvy) hxy
  · exact leaves_paths_nodup d hd

/-! ### Flatten characterization -/

lemma dictInsert_fresh (m : List (String × String)) (k v : String)
    (h : ∀ p ∈ m, p.1 ≠ k) : dictInsert m k v = m ++ [(k, v)] := by
  unfold dictInsert
  rw [if_neg]
  simp only [List.any_eq_true, beq_iff_eq, not_exists, not_and]
  intro p hp
  exact h p hp

lemma dictUpdate_fresh :
    ∀ (sub m : List (String × String)), (sub.map Prod.fst).Nodup →
      (∀ p ∈ sub, ∀ q ∈ m, q.1 ≠ p.1) → dictUpdate m sub = m ++ sub := by
  intro sub
  induction sub with
  | nil => intro m _ _; simp [dictUpdate]
  | cons p sub' ih =>
    intro m hnd hf
    show dictUpdate (dictInsert m p.1 p.2) sub' = m ++ p :: sub'
    rw [dictInsert_fresh m p.1 p.2 (fun q hq => hf p (by simp) q hq)]
    simp only [List.map_cons, List.nodup_cons] at hnd
    rw [ih (m ++ [(p.1, p.2)]) hnd.2 ?_]
    · simp
    · intro p' hp' q hq
      rcases List.mem_append.mp hq with hq | hq
      · exact hf p' (by simp [hp']) q hq
      · simp only [List.mem_singleton] at hq
        subst hq
        simp only [ne_eq]
        intro hcontra
        exact hnd.1 (by rw [hcontra]; exact List.mem_map_of_mem Prod.fst hp')

lemma flattenGo_eq :
    ∀ (d : EntryList) (pre : String) (acc : List (String × String)),
      goodDoc d = true →
      (∀ p ∈ acc, ∀ pv ∈ leaves d, p.1 ≠ joinAll pre pv.1) →
      flattenGo d pre acc
        = acc ++ (leaves d).map (fun pv => (joinAll pre pv.1, pyStr pv.2)) := by
  intro d pre acc
  induction d, pre, acc using flattenGo.induct with
  | case1 pre acc =>
    intro _ _
    simp [flattenGo, leaves]
  | case2 key rest pre acc d2 ih1 ih2 =>
    intro hg hf
    obtain ⟨h1, h2, h3, h4, h5⟩ := goodDoc_dict hg
    have hpathsub : ∀ pv ∈ leaves d2, pathOk (key :: pv.1) = true := by
      intro pv hpv
      have := leaves_ok d2 h4 pv hpv
      simp only [pathOk, List.all_cons, Bool.and_eq_true] at this ⊢
      exact ⟨⟨by simpa using h1, h2⟩, this⟩
    have hinner : flattenGo d2 (joinKey pre key) []
        = (leaves d2).map (fun pv => (joinAll (joinKey pre key) pv.1, pyStr pv.2)) := by
      rw [ih1 h4 (by simp)]
      simp
    show flattenGo rest pre (dictUpdate acc (flattenGo d2 (joinKey pre key) [])) = _
    rw [hinner]
    set sub := (leaves d2).map (fun pv => (joinAll (joinKey pre key) pv.1, pyStr pv.2)) with hsub
    have hsubkeys : sub.map Prod.fst = (leaves d2).map (fun pv => joinAll (joinKey pre key) pv.1) := by
      rw [hsub, List.map_map]
      rfl
    have hupd : dictUpdate acc sub = acc ++ sub := by
      apply dictUpdate_fresh sub acc
      · rw [hsubkeys]
        exact mapped_nodup d2 (joinKey pre key) h4
      · intro p hp q hq
        rw [hsub] at hp
        simp only [List.mem_map] at hp
        obtain ⟨pv, hpv, rfl⟩ := hp
        have hmem : ((key :: pv.1, pv.2) : List String × Value)
            ∈ leaves (EntryList.cons key (Value.dict d2) rest) := by
          simp only [leaves, List.mem_append, List.mem_map]
          exact Or.inl ⟨pv, hpv, rfl⟩
        have := hf q hq (key :: pv.1, pv.2) hmem
        simpa [joinAll_cons] using this
    rw [hupd]
    rw [hinner, hupd] at ih2
    rw [ih2 h5 ?_]
    · simp only [leaves, List.map_append, List.map_map, List.append_assoc]
      rfl
    · intro p hp pv hpv
      rcases List.mem_append.mp hp with hpacc | hpsub
      · exact hf p hpacc pv (by simp only [leaves, List.mem_append]; exact Or.inr hpv)
      · rw [hsub] at hpsub
        simp only [List.mem_map] at hpsub
        obtain ⟨pv2, hpv2, rfl⟩ := hpsub
        simp only [ne_eq]
        intro hcontra
        have hcontra' : joinAll pre (key :: pv2.1) = joinAll pre pv.1 := by
          rw [joinAll_cons]
          exact hcontra
        have heq := joinAll_inj (key :: pv2.1) pv.1 pre (hpathsub pv2 hpv2)
          (leaves_ok rest h5 pv hpv) hcontra'
        obtain ⟨k0, r, he, hm⟩ := leaves_head rest pv hpv
        rw [he] at heq
        have hk : key = k0 := by
          simpa using (List.cons.inj heq.symm).1.symm
        rw [← hk] at hm
        rw [hm] at h3
        simp at h3
  | case3 key v rest pre acc hside ih =>
    intro hg hf
    have hv : v.isDict = false := by
      cases v <;> first | rfl | (exfalso; exact hside _ rfl)
    obtain ⟨h1, h2, h3, h4⟩ := goodDoc_other hv hg
    have hself : (([key], v) : List String × Value)
        ∈ leaves (EntryList.cons key v rest) := by
      rw [leaves_other hv]
      simp
    have hfk : joinAll pre [key] = joinKey pre key := rfl
    have hins : dictInsert acc (joinKey pre key) (pyStr v)
        = acc ++ [(joinKey pre key, pyStr v)] := by
      apply dictInsert_fresh
      intro p hp
      have := hf p hp ([key], v) hself
      simpa [hfk] using this
    rw [flattenGo_other hv key rest pre acc, hins]
    rw [hins] at ih
    rw [ih h4 ?_]
    · rw [leaves_other hv]
      simp [hfk]
    · intro p hp pv hpv
      rcases List.mem_append.mp hp with hpacc | hpnew
      · exact hf p hpacc pv (by rw [leaves_other hv]; simp [hpv])
      · simp only [List.mem_singleton] at hpnew
        subst hpnew
        simp only [ne_eq]
        intro hcontra
        have hcontra' : joinAll pre [key] = joinAll pre pv.1 := by
          rw [hfk]
          exact hcontra
        have hokk : pathOk [key] = true := by
          simp only [pathOk, List.all_cons, List.all_nil, Bool.and_eq_true]
          exact ⟨⟨by simpa using h1, h2⟩, trivial⟩
        have heq := joinAll_inj [key] pv.1 pre hokk (leaves_ok rest h4 pv hpv) hcontra'
        obtain ⟨k0, r, he, hm⟩ := leaves_head rest pv hpv
        rw [he] at heq
        have hk : key = k0 := by
          simpa using (List.cons.inj heq).1
        rw [← hk] at hm
        rw [hm] at h3
        simp at h3

/-- The overall flatten characterization for well-formed documents. -/
lemma flatten_eq (d : EntryList) (hd : goodDoc d = true) :
    flatten d "" = (leaves d).map (fun pv => (joinAll "" pv.1, pyStr pv.2)) := by
  unfold flatten
  rw [flattenGo_eq d "" [] hd (by simp)]
  simp

/-! ### Claims C1, C4, C9 -/

/-- Claim C1 (amended): for every configuration document whose keys are, at
every level, duplicate-free, nonempty and dot-free, `flatten` produces
exactly one entry per root-to-leaf path, keyed by the dotted path and valued
by the `str` coercion of the leaf; and an empty nested document at a branch
contributes no entries (unconditionally). -/
theorem c1_flatten_dotted_paths :
    (∀ d : EntryList, goodDoc d = true →
      flatten d "" = (leaves d).map (fun pv => (joinAll "" pv.1, pyStr pv.2)))
    ∧ (∀ (key pre : String) (rest : EntryList) (acc : List (String × String)),
      flattenGo (EntryList.cons key (Value.dict EntryList.nil) rest) pre acc
        = flattenGo rest pre acc) :=
  ⟨fun d hd => flatten_eq d hd, fun _ _ _ _ => rfl⟩

/-- Witness for C1: the amended theorem evaluated on a concrete well-formed
document. -/
theorem c1_witness :
    goodDoc exGood = true
    ∧ flatten exGood "" = [("brand.primary", "#fff"), ("name", "Acme")] := by
  refine ⟨by decide, ?_⟩
  have h := c1_flatten_dotted_paths.1 exGood (by decide)
  rw [h]
  decide

/-- Counterexample to C1 as stated: in `exDoc` the two distinct root-to-leaf
paths `["a.b"]` and `["a", "b"]` share the dotted key `"a.b"`, the second
entry overwrites the first, and the mapping's value at the dotted path of the
leaf `1` is not that leaf's coercion. -/
theorem c1_counterexample :
    (leaves exDoc).map (fun pv => (joinAll "" pv.1, pyStr pv.2)) = [("a.b", "1"), ("a.b", "2")]
    ∧ flatten exDoc "" = [("a.b", "2")]
    ∧ ¬ (∀ pv ∈ leaves exDoc,
        List.lookup (joinAll "" pv.1) (flatten exDoc "") = some (pyStr pv.2)) := by
  refine ⟨by decide, by decide, by decide⟩

/-- Claim C4 (amended): for every configuration document whose keys are, at
every level, duplicate-free, nonempty and dot-free, distinct root-to-leaf
paths produce distinct dotted keys, and the keys of `flatten` are exactly
those dotted keys — so no flattened entry overwrites another. -/
theorem c4_distinct_keys :
    ∀ d : EntryList, goodDoc d = true →
      ((leaves d).map (fun pv => joinAll "" pv.1)).Nodup
      ∧ (flatten d "").map Prod.fst = (leaves d).map (fun pv => joinAll "" pv.1) := by
  intro d hd
  refine ⟨mapped_nodup d "" hd, ?_⟩
  rw [flatten_eq d hd, List.map_map]
  rfl

/-- Witness for C4: the amended theorem evaluated on a concrete well-formed
document. -/
theorem c4_witness :
    goodDoc exGood = true
    ∧ ((leaves exGood).map (fun pv => joinAll "" pv.1)).Nodup
    ∧ (flatten exGood "").map Prod.fst = (leaves exGood).map (fun pv => joinAll "" pv.1) := by
  refine ⟨by decide, (c4_distinct_keys exGood (by decide)).1,
    (c4_distinct_keys exGood (by decide)).2⟩

/-- Counterexample to C4 as stated: `exDoc` has two distinct root-to-leaf
paths whose dotted keys coincide, and the flattened mapping collapses them to
a single entry. -/
theorem c4_counterexample :
    (leaves exDoc).map Prod.fst = [["a.b"], ["a", "b"]]
    ∧ (["a.b"] : List String) ≠ ["a", "b"]
    ∧ (leaves exDoc).map (fun pv => joinAll "" pv.1) = ["a.b", "a.b"]
    ∧ (flatten exDoc "").map Prod.fst = ["a.b"] := by
  refine ⟨by decide, by decide, by decide, by decide⟩

/-- Claim C9: a non-dict leaf — number, boolean, null, or list — is recorded
under its joined key as its total `str` coercion; in particular a list leaf
yields a single entry holding the rendering of the whole list, never one
entry per element. -/
theorem c9_scalar_coercion :
    (∀ (k : String) (v : Value) (pre : String), v.isDict = false →
      flatten (EntryList.cons k v EntryList.nil) pre = [(joinKey pre k, pyStr v)])
    ∧ (∀ (k : String) (xs : ValueList) (pre : String),
      flatten (EntryList.cons k (Value.arr xs) EntryList.nil) pre
        = [(joinKey pre k, "[" ++ pyReprSeq xs ++ "]")]) := by
  constructor
  · intro k v pre hv
    unfold flatten
    rw [flattenGo_other hv]
    rfl
  · intro k xs pre
    unfold flatten
    rw [flattenGo_other (show (Value.arr xs).isDict = false from rfl)]
    rfl

/-- Witness for C9: a two-element list leaf flattens to the single entry
holding the Python rendering of the whole list. -/
theorem c9_witness :
    (Value.arr (ValueList.cons (Value.num 1)
      (ValueList.cons (Value.str "x") ValueList.nil))).isDict = false
    ∧ flatten (EntryList.cons "k"
        (Value.arr (ValueList.cons (Value.num 1)
          (ValueList.cons (Value.str "x") ValueList.nil)))
        EntryList.nil) ""
      = [("k", "[1, 'x']")] := by
  refine ⟨rfl, ?_⟩
  have h := c9_scalar_coercion.1 "k"
    (Value.arr (ValueList.cons (Value.num 1)
      (ValueList.cons (Value.str "x") ValueList.nil))) "" rfl
  rw [h]
  decide

/-! ### Replacement machinery: stepping lemmas for replaceAll -/

lemma appendChars_render (v : List Char) (t : Tmpl) :
    (appendChars v t).render = v ++ t.render := by
  induction v with
  | nil => rfl
  | cons c v ih => simp [appendChars, Tmpl.render] at ih ⊢; exact ih

lemma tok_ne_nil (k : List Char) : tok k ≠ [] := by simp [tok]

lemma tok_length (k : List Char) : (tok k).length = k.length + 4 := by
  simp [tok]

lemma isPre_append (u v : List Char) : u.isPrefixOf (u ++ v) = true := by
  induction u with
  | nil => cases v <;> rfl
  | cons c u ih => simp [List.isPrefixOf, ih]

lemma isPre_exists {u w : List Char} (h : u.isPrefixOf w = true) :
    ∃ v, w = u ++ v := by
  induction u generalizing w with
  | nil => exact ⟨w, rfl⟩
  | cons c u ih =>
    cases w with
    | nil => simp [List.isPrefixOf] at h
    | cons c' w' =>
      simp only [List.isPrefixOf, Bool.and_eq_true, beq_iff_eq] at h
      obtain ⟨rfl, h2⟩ := h
      obtain ⟨v, rfl⟩ := ih h2
      exact ⟨v, rfl⟩

lemma replaceAll_nil (pat rep : List Char) : replaceAll pat rep [] = [] := by
  simp [replaceAll]

lemma replaceAll_nomatch {pat : List Char} (rep : List Char) {c : Char} {s : List Char}
    (h : pat.isPrefixOf (c :: s) = false) :
    replaceAll pat rep (c :: s) = c :: replaceAll pat rep s := by
  rw [replaceAll]
  rw [if_neg]
  simp [h]

lemma replaceAll_match {pat : List Char} (rep : List Char) (s : List Char)
    (h : pat ≠ []) :
    replaceAll pat rep (pat ++ s) = rep ++ replaceAll pat rep s := by
  cases pat with
  | nil => exact absurd rfl h
  | cons p0 pat' =>
    rw [List.cons_append, replaceAll, if_pos]
    · congr 1
      congr 1
      simp only [List.length_cons, Nat.add_sub_cancel]
      exact List.drop_left pat' s
    · refine ⟨by simp, ?_⟩
      rw [← List.cons_append]
      exact isPre_append (p0 :: pat') s

lemma tok_not_pre_chr (k : List Char) {c : Char} (hc : c ≠ '{') (s : List Char) :
    (tok k).isPrefixOf (c :: s) = false := by
  have hb : ('{' == c) = false := by
    simp only [beq_eq_false_iff_ne, ne_eq]
    exact fun h => hc h.symm
  simp [tok, List.isPrefixOf, hb]

lemma replaceAll_chr (k rep : List Char) {c : Char} (hc : c ≠ '{') (s : List Char) :
    replaceAll (tok k) rep (c :: s) = c :: replaceAll (tok k) rep s :=
  replaceAll_nomatch rep (tok_not_pre_chr k hc s)

lemma replaceAll_skip (k rep : List Char) {u : List Char} (hu : ∀ c ∈ u, c ≠ '{')
    (s : List Char) :
    replaceAll (tok k) rep (u ++ s) = u ++ replaceAll (tok k) rep s := by
  induction u with
  | nil => rfl
  | cons c u ih =>
    rw [List.cons_append, replaceAll_chr k rep (hu c (by simp)) (u ++ s)]
    rw [ih (fun c' hc' => hu c' (by simp [hc']))]
    rfl

lemma takeWhile_closeBrace {a : List Char} (ha : ∀ c ∈ a, c ≠ '}') (z : List Char) :
    (a ++ '}' :: z).takeWhile (fun c => !(c == '}')) = a := by
  induction a with
  | nil => simp
  | cons c a ih =>
    have hc : (!(c == '}')) = true := by
      simp only [Bool.not_eq_true', beq_eq_false_iff_ne, ne_eq]
      exact ha c (by simp)
    rw [List.cons_append, List.takeWhile_cons, hc]
    simp only [if_true]
    rw [ih (fun c' hc' => ha c' (by simp [hc']))]

lemma brFree_chars {u : List Char} (h : brFree u = true) :
    ∀ c ∈ u, c ≠ '{' ∧ c ≠ '}' := by
  intro c hc
  simp only [brFree, List.all_eq_true, noBraceC, Bool.and_eq_true, Bool.not_eq_true',
    beq_eq_false_iff_ne, ne_eq] at h
  exact h c hc

lemma tok_not_pre_tok {k k2 : List Char} (hne : k ≠ k2)
    (hk : ∀ c ∈ k, c ≠ '}') (hk2 : ∀ c ∈ k2, c ≠ '}') (s : List Char) :
    (tok k).isPrefixOf (tok k2 ++ s) = false := by
  cases hb : (tok k).isPrefixOf (tok k2 ++ s) with
  | false => rfl
  | true =>
    exfalso
    obtain ⟨v, hv⟩ := isPre_exists hb
    simp only [tok, List.cons_append, List.cons.injEq, true_and] at hv
    have h1 := congrArg (List.takeWhile (fun c => !(c == '}'))) hv
    rw [List.append_assoc, List.append_assoc] at h1
    have hsh1 : (['}', '}'] ++ s : List Char) = '}' :: ('}' :: s) := rfl
    have hsh2 : (['}', '}'] ++ v : List Char) = '}' :: ('}' :: v) := rfl
    rw [hsh1, hsh2, takeWhile_closeBrace hk2, takeWhile_closeBrace hk] at h1
    exact hne h1.symm

lemma tok_not_pre_pos1 {k k2 : List Char} (hk2 : k2 ≠ []) (hk2b : ∀ c ∈ k2, c ≠ '{')
    (z : List Char) : (tok k).isPrefixOf ('{' :: (k2 ++ z)) = false := by
  cases k2 with
  | nil => exact absurd rfl hk2
  | cons c0 k2' =>
    have hb : ('{' == c0) = false := by
      simp only [beq_eq_false_iff_ne, ne_eq]
      exact fun h => hk2b c0 (by simp) h.symm
    simp [tok, List.isPrefixOf, hb]

lemma tmplOk_chr {c : Char} {t : Tmpl} (h : (Tmpl.chr c t).ok = true) :
    noBraceC c = true ∧ t.ok = true := by
  simpa [Tmpl.ok, Bool.and_eq_true] using h

lemma tmplOk_hole {k : List Char} {t : Tmpl} (h : (Tmpl.hole k t).ok = true) :
    k ≠ [] ∧ brFree k = true ∧ t.ok = true := by
  simp only [Tmpl.ok, Bool.and_eq_true, Bool.not_eq_true'] at h
  refine ⟨?_, h.1.2, h.2⟩
  cases k with
  | nil => simp at h
  | cons c k' => simp

lemma noBraceC_chars {c : Char} (h : noBraceC c = true) : c ≠ '{' ∧ c ≠ '}' := by
  simpa [noBraceC, Bool.and_eq_true, Bool.not_eq_true', beq_eq_false_iff_ne] using h

lemma ra_render (k v : List Char) (hk : k ≠ []) (hkb : brFree k = true) :
    ∀ t : Tmpl, t.ok = true → replaceAll (tok k) v t.render = (t.substOne k v).render := by
  intro t
  induction t with
  | nil => intro _; exact replaceAll_nil _ _
  | chr c t ih =>
    intro ht
    obtain ⟨hc, ht'⟩ := tmplOk_chr ht
    show replaceAll (tok k) v (c :: t.render) = (Tmpl.chr c (t.substOne k v)).render
    rw [replaceAll_chr k v (noBraceC_chars hc).1, ih ht']
    rfl
  | hole k2 t ih =>
    intro ht
    obtain ⟨hk2, hk2b, ht'⟩ := tmplOk_hole ht
    by_cases hkk : k2 = k
    · subst hkk
      show replaceAll (tok k2) v (tok k2 ++ t.render) = (Tmpl.substOne k2 v (Tmpl.hole k2 t)).render
      rw [replaceAll_match v t.render (tok_ne_nil k2), ih ht']
      simp [Tmpl.substOne, appendChars_render]
    · show replaceAll (tok k) v (tok k2 ++ t.render) = (Tmpl.substOne k v (Tmpl.hole k2 t)).render
      have hsh : tok k2 ++ t.render = '{' :: ('{' :: (k2 ++ ('}' :: ('}' :: t.render)))) := by
        simp [tok]
      rw [hsh]
      rw [replaceAll_nomatch v ?hpre0]
      case hpre0 =>
        have := tok_not_pre_tok (fun h => hkk h.symm)
          (fun c hc => (brFree_chars hkb c hc).2) (fun c hc => (brFree_chars hk2b c hc).2)
          t.render
        rw [hsh] at this
        exact this
      rw [replaceAll_nomatch v
        (tok_not_pre_pos1 hk2 (fun c hc => (brFree_chars hk2b c hc).1) ('}' :: ('}' :: t.render)))]
      rw [replaceAll_skip k v (fun c hc => (brFree_chars hk2b c hc).1) ('}' :: ('}' :: t.render))]
      rw [replaceAll_chr k v (by decide) ('}' :: t.render)]
      rw [replaceAll_chr k v (by decide) t.render]
      rw [ih ht']
      simp [Tmpl.substOne, hkk, Tmpl.render, tok]

/-! ### Sequential substitution equals simultaneous substitution -/

lemma mOk_cons {kv : List Char × List Char} {m : List (List Char × List Char)}
    (h : mOk (kv :: m) = true) :
    kv.1 ≠ [] ∧ brFree kv.1 = true ∧ brFree kv.2 = true ∧ mOk m = true := by
  simp only [mOk, List.all_cons, Bool.and_eq_true, Bool.not_eq_true'] at h
  refine ⟨?_, h.1.1.2, h.1.2, h.2⟩
  have := h.1.1.1
  cases hk : kv.1 with
  | nil => rw [hk] at this; simp at this
  | cons c k' => simp

lemma appendChars_ok {v : List Char} (hv : brFree v = true) {t : Tmpl}
    (ht : t.ok = true) : (appendChars v t).ok = true := by
  induction v with
  | nil => exact ht
  | cons c v ih =>
    have hv' : brFree v = true := by
      simp only [brFree, List.all_cons, Bool.and_eq_true] at hv
      exact hv.2
    have hc : noBraceC c = true := by
      simp only [brFree, List.all_cons, Bool.and_eq_true] at hv
      exact hv.1
    show (Tmpl.chr c (appendChars v t)).ok = true
    simp [Tmpl.ok, hc, ih hv']

lemma substOne_ok {k v : List Char} (hv : brFree v = true) :
    ∀ t : Tmpl, t.ok = true → (t.substOne k v).ok = true := by
  intro t
  induction t with
  | nil => intro _; trivial
  | chr c t ih =>
    intro ht
    obtain ⟨hc, ht'⟩ := tmplOk_chr ht
    simp [Tmpl.substOne, Tmpl.ok, hc, ih ht']
  | hole k2 t ih =>
    intro ht
    obtain ⟨hk2, hk2b, ht'⟩ := tmplOk_hole ht
    by_cases hkk : k2 = k
    · simp only [Tmpl.substOne, if_pos hkk]
      exact appendChars_ok hv (ih ht')
    · simp only [Tmpl.substOne, if_neg hkk]
      simp only [Tmpl.ok, Bool.and_eq_true, Bool.not_eq_true']
      refine ⟨⟨?_, hk2b⟩, ih ht'⟩
      cases k2 with
      | nil => exact absurd rfl hk2
      | cons c k' => simp

lemma substitute_foldl (m : List (List Char × List Char)) :
    ∀ t : Tmpl, t.ok = true → mOk m = true →
      substitute m t.render
        = (m.foldl (fun t kv => t.substOne kv.1 kv.2) t).render := by
  induction m with
  | nil => intro t _ _; rfl
  | cons kv m ih =>
    intro t ht hm
    obtain ⟨h1, h2, h3, h4⟩ := mOk_cons hm
    show substitute m (replaceAll (tok kv.1) kv.2 t.render) = _
    rw [ra_render kv.1 kv.2 h1 h2 t ht]
    rw [ih (t.substOne kv.1 kv.2) (substOne_ok h3 t ht) h4]
    rfl

lemma psubst_nil : ∀ t : Tmpl, t.psubst [] = t := by
  intro t
  induction t with
  | nil => rfl
  | chr c t ih => simp [Tmpl.psubst, ih]
  | hole k t ih => simp [Tmpl.psubst, lookupL, ih]

lemma psubst_appendChars (m : List (List Char × List Char)) (v : List Char) :
    ∀ t : Tmpl, (appendChars v t).psubst m = appendChars v (t.psubst m) := by
  intro t
  induction v with
  | nil => rfl
  | cons c v ih =>
    show (Tmpl.chr c (appendChars v t)).psubst m = Tmpl.chr c (appendChars v (t.psubst m))
    simp only [Tmpl.psubst]
    rw [ih]

lemma psubst_substOne (k v : List Char) (m : List (List Char × List Char)) :
    ∀ t : Tmpl, (t.substOne k v).psubst m = t.psubst ((k, v) :: m) := by
  intro t
  induction t with
  | nil => rfl
  | chr c t ih => simp only [Tmpl.substOne, Tmpl.psubst]; rw [ih]
  | hole k2 t ih =>
    by_cases hkk : k2 = k
    · subst hkk
      have hstep : Tmpl.substOne k2 v (Tmpl.hole k2 t) = appendChars v (Tmpl.substOne k2 v t) := by
        simp [Tmpl.substOne]
      rw [hstep, psubst_appendChars, ih]
      have hl : lookupL k2 ((k2, v) :: m) = some v := by
        simp [lookupL, List.find?]
      simp [Tmpl.psubst, hl]
    · simp only [Tmpl.substOne, if_neg hkk]
      have hl : lookupL k2 ((k, v) :: m) = lookupL k2 m := by
        have hb : (k == k2) = false := by
          simp only [beq_eq_false_iff_ne, ne_eq]
          exact fun h => hkk h.symm
        simp [lookupL, List.find?, hb]
      simp only [Tmpl.psubst, hl]
      cases hcase : lookupL k2 m with
      | none => simp [ih]
      | some w => simp [ih]

lemma foldl_substOne_psubst (m : List (List Char × List Char)) :
    ∀ t : Tmpl, m.foldl (fun t kv => t.substOne kv.1 kv.2) t = t.psubst m := by
  induction m with
  | nil => intro t; exact (psubst_nil t).symm
  | cons kv m ih =>
    intro t
    show m.foldl _ (t.substOne kv.1 kv.2) = _
    rw [ih (t.substOne kv.1 kv.2), psubst_substOne]

/-- Sequential replacement over a well-formed template and mapping computes
the simultaneous substitution. -/
lemma substitute_psubst {m : List (List Char × List Char)} {t : Tmpl}
    (ht : t.ok = true) (hm : mOk m = true) :
    substitute m t.render = (t.psubst m).render := by
  rw [substitute_foldl m t ht hm, foldl_substOne_psubst]

/-! ### Lookup, hole and occurrence lemmas -/

lemma lookupL_cons (k : List Char) (kv : List Char × List Char)
    (m : List (List Char × List Char)) :
    lookupL k (kv :: m) = if kv.1 = k then some kv.2 else lookupL k m := by
  by_cases h : kv.1 = k
  · simp [lookupL, List.find?, h]
  · have hb : (kv.1 == k) = false := by simp [h]
    simp [lookupL, List.find?, hb, h]

lemma lookupL_mem {k v : List Char} {m : List (List Char × List Char)}
    (h : lookupL k m = some v) : (k, v) ∈ m := by
  induction m with
  | nil => simp [lookupL] at h
  | cons kv m ih =>
    rw [lookupL_cons] at h
    by_cases hk : kv.1 = k
    · rw [if_pos hk] at h
      have hv : v = kv.2 := by simpa using h.symm
      have heq : (k, v) = kv := by
        rw [← hk, hv]
      rw [heq]
      exact List.mem_cons_self kv m
    · rw [if_neg hk] at h
      exact List.mem_cons_of_mem kv (ih h)

lemma lookupL_none {k : List Char} {m : List (List Char × List Char)} :
    lookupL k m = none ↔ ∀ kv ∈ m, kv.1 ≠ k := by
  simp [lookupL, List.find?_eq_none]

lemma lookupL_of_mem_nodup {k v : List Char} {m : List (List Char × List Char)}
    (hnd : (m.map Prod.fst).Nodup) (hmem : (k, v) ∈ m) : lookupL k m = some v := by
  induction m with
  | nil => simp at hmem
  | cons kv m ih =>
    simp only [List.map_cons, List.nodup_cons] at hnd
    rw [lookupL_cons]
    rcases List.mem_cons.mp hmem with heq | htail
    · rw [← heq]
      simp
    · have hk : kv.1 ≠ k := by
        intro hcontra
        exact hnd.1 (by rw [hcontra]; exact List.mem_map_of_mem Prod.fst htail)
      rw [if_neg hk]
      exact ih hnd.2 htail

lemma lookupL_perm {m m' : List (List Char × List Char)} (hperm : m.Perm m')
    (hnd : (m.map Prod.fst).Nodup) (k : List Char) : lookupL k m = lookupL k m' := by
  have hnd' : (m'.map Prod.fst).Nodup := ((hperm.map Prod.fst).nodup_iff).mp hnd
  cases hcase : lookupL k m with
  | some v =>
    exact (lookupL_of_mem_nodup hnd' (hperm.mem_iff.mp (lookupL_mem hcase))).symm
  | none =>
    symm
    rw [lookupL_none]
    intro kv hkv
    exact (lookupL_none.mp hcase) kv (hperm.mem_iff.mpr hkv)

lemma psubst_congr {m m' : List (List Char × List Char)}
    (h : ∀ k, lookupL k m = lookupL k m') : ∀ t : Tmpl, t.psubst m = t.psubst m' := by
  intro t
  induction t with
  | nil => rfl
  | chr c t ih => simp only [Tmpl.psubst]; rw [ih]
  | hole k t ih =>
    simp only [Tmpl.psubst]
    rw [← h k]
    cases lookupL k m with
    | none => rw [ih]
    | some v => rw [ih]

lemma mOk_mem {m : List (List Char × List Char)} {kv : List Char × List Char}
    (hm : mOk m = true) (h : kv ∈ m) :
    kv.1 ≠ [] ∧ brFree kv.1 = true ∧ brFree kv.2 = true := by
  simp only [mOk, List.all_eq_true, Bool.and_eq_true, Bool.not_eq_true'] at hm
  have := hm kv h
  refine ⟨?_, this.1.2, this.2⟩
  cases hk : kv.1 with
  | nil => rw [hk] at this; simp at this
  | cons c k' => simp

lemma psubst_ok {m : List (List Char × List Char)} (hm : mOk m = true) :
    ∀ t : Tmpl, t.ok = true → (t.psubst m).ok = true := by
  intro t
  induction t with
  | nil => intro _; trivial
  | chr c t ih =>
    intro ht
    obtain ⟨hc, ht'⟩ := tmplOk_chr ht
    simp [Tmpl.psubst, Tmpl.ok, hc, ih ht']
  | hole k2 t ih =>
    intro ht
    obtain ⟨hk2, hk2b, ht'⟩ := tmplOk_hole ht
    simp only [Tmpl.psubst]
    cases hcase : lookupL k2 m with
    | none =>
      simp only [Tmpl.ok, Bool.and_eq_true, Bool.not_eq_true']
      refine ⟨⟨?_, hk2b⟩, ih ht'⟩
      cases k2 with
      | nil => exact absurd rfl hk2
      | cons c k' => simp
    | some v =>
      exact appendChars_ok (mOk_mem hm (lookupL_mem hcase)).2.2 (ih ht')

lemma appendChars_holeKeys (v : List Char) (t : Tmpl) :
    (appendChars v t).holeKeys = t.holeKeys := by
  induction v with
  | nil => rfl
  | cons c v ih => simpa [appendChars, Tmpl.holeKeys] using ih

lemma psubst_holeKeys (m : List (List Char × List Char)) :
    ∀ t : Tmpl, (t.psubst m).holeKeys
      = t.holeKeys.filter (fun k => (lookupL k m).isNone) := by
  intro t
  induction t with
  | nil => rfl
  | chr c t ih => simpa [Tmpl.psubst, Tmpl.holeKeys] using ih
  | hole k t ih =>
    simp only [Tmpl.psubst]
    cases hcase : lookupL k m with
    | none =>
      simp [Tmpl.holeKeys, List.filter_cons, hcase, ih]
    | some v =>
      rw [appendChars_holeKeys]
      simp [Tmpl.holeKeys, List.filter_cons, hcase, ih]

lemma psubst_of_none {m : List (List Char × List Char)} :
    ∀ t : Tmpl, (∀ k ∈ t.holeKeys, lookupL k m = none) → t.psubst m = t := by
  intro t
  induction t with
  | nil => intro _; rfl
  | chr c t ih =>
    intro h
    simp only [Tmpl.psubst]
    rw [ih (fun k hk => h k (by simpa [Tmpl.holeKeys] using hk))]
  | hole k t ih =>
    intro h
    simp only [Tmpl.psubst]
    rw [h k (by simp [Tmpl.holeKeys])]
    rw [ih (fun k' hk' => h k' (by simp [Tmpl.holeKeys, hk']))]

lemma containsSub_cons (pat : List Char) (c : Char) (s : List Char) :
    containsSub pat (c :: s) = (pat.isPrefixOf (c :: s) || containsSub pat s) := rfl

lemma containsSub_skip {k u : List Char} (hu : ∀ c ∈ u, c ≠ '{') (x : List Char) :
    containsSub (tok k) (u ++ x) = containsSub (tok k) x := by
  induction u with
  | nil => rfl
  | cons c u ih =>
    rw [List.cons_append, containsSub_cons, tok_not_pre_chr k (hu c (by simp)) (u ++ x)]
    simp only [Bool.false_or]
    exact ih (fun c' hc' => hu c' (by simp [hc']))

lemma render_no_tok {k : List Char} (_hk : k ≠ []) (hkb : brFree k = true) :
    ∀ t : Tmpl, t.ok = true → k ∉ t.holeKeys → containsSub (tok k) t.render = false := by
  intro t
  induction t with
  | nil =>
    intro _ _
    show containsSub (tok k) [] = false
    cases hcase : tok k with
    | nil => exact absurd hcase (tok_ne_nil k)
    | cons c s => simp [containsSub, hcase]
  | chr c t ih =>
    intro ht hmem
    obtain ⟨hc, ht'⟩ := tmplOk_chr ht
    show containsSub (tok k) (c :: t.render) = false
    rw [containsSub_cons, tok_not_pre_chr k (noBraceC_chars hc).1 t.render]
    simpa using ih ht' (by simpa [Tmpl.holeKeys] using hmem)
  | hole k2 t ih =>
    intro ht hmem
    obtain ⟨hk2, hk2b, ht'⟩ := tmplOk_hole ht
    simp only [Tmpl.holeKeys, List.mem_cons, not_or] at hmem
    show containsSub (tok k) (tok k2 ++ t.render) = false
    have hsh : tok k2 ++ t.render = '{' :: ('{' :: (k2 ++ ('}' :: ('}' :: t.render)))) := by
      simp [tok]
    rw [hsh, containsSub_cons]
    rw [show ('{' : Char) :: ('{' :: (k2 ++ ('}' :: ('}' :: t.render)))) = tok k2 ++ t.render from hsh.symm]
    rw [tok_not_pre_tok hmem.1 (fun c hc => (brFree_chars hkb c hc).2)
      (fun c hc => (brFree_chars hk2b c hc).2) t.render]
    rw [containsSub_cons]
    rw [tok_not_pre_pos1 hk2 (fun c hc => (brFree_chars hk2b c hc).1) ('}' :: ('}' :: t.render))]
    rw [containsSub_skip (fun c hc => (brFree_chars hk2b c hc).1) ('}' :: ('}' :: t.render))]
    rw [containsSub_cons, tok_not_pre_chr k (by decide) ('}' :: t.render)]
    rw [containsSub_cons, tok_not_pre_chr k (by decide) t.render]
    simpa using ih ht' hmem.2

/-! ### The placeholder scan on rendered templates -/

lemma findTokens_nil : findTokens [] = [] := by
  rw [findTokens.eq_def]

lemma findTokens_chr {c : Char} (hc : c ≠ '{') (s : List Char) :
    findTokens (c :: s) = findTokens s := by
  rw [findTokens.eq_def]
  split
  · next rest heq =>
    exfalso
    have := (List.cons.injEq .. ▸ heq)
    simp only [List.cons.injEq] at heq
    exact hc heq.1
  · next x rest heq =>
    simp only [List.cons.injEq] at heq
    rw [heq.2]
  · next heq => simp at heq

lemma findTokens_tok {k : List Char} (hk : k ≠ []) (hkb : ∀ c ∈ k, c ≠ '}')
    (s : List Char) : findTokens (tok k ++ s) = tok k :: findTokens s := by
  have hsh : tok k ++ s = '{' :: ('{' :: (k ++ ('}' :: ('}' :: s)))) := by
    simp [tok]
  rw [hsh, findTokens.eq_def]
  simp only
  rw [takeWhile_closeBrace hkb ('}' :: s)]
  rw [if_pos ?hcond]
  case hcond =>
    constructor
    · cases k with
      | nil => exact absurd rfl hk
      | cons c k' => rfl
    · rw [show (k ++ ('}' :: ('}' :: s))).drop k.length = '}' :: ('}' :: s) from List.drop_left k _]
      rfl
  have hdrop : (k ++ ('}' :: ('}' :: s))).drop (k.length + 2) = s := by
    rw [show ('}' :: ('}' :: s) : List Char) = ['}', '}'] ++ s from rfl]
    rw [List.drop_append 2]
    rfl
  rw [hdrop]
  simp [tok]

/-- On the text of a well-formed template view, the placeholder scan finds
exactly the tokens of the holes, in order. -/
lemma findTokens_render : ∀ t : Tmpl, t.ok = true →
    findTokens t.render = (t.holeKeys).map tok := by
  intro t
  induction t with
  | nil => intro _; exact findTokens_nil
  | chr c t ih =>
    intro ht
    obtain ⟨hc, ht'⟩ := tmplOk_chr ht
    show findTokens (c :: t.render) = _
    rw [findTokens_chr (noBraceC_chars hc).1 t.render]
    exact ih ht'
  | hole k t ih =>
    intro ht
    obtain ⟨hk, hkb, ht'⟩ := tmplOk_hole ht
    show findTokens (tok k ++ t.render) = _
    rw [findTokens_tok hk (fun c hc => (brFree_chars hkb c hc).2) t.render]
    simp [Tmpl.holeKeys, ih ht']

lemma mOk_perm {m m' : List (List Char × List Char)} (hperm : m'.Perm m)
    (hm : mOk m = true) : mOk m' = true := by
  simp only [mOk, List.all_eq_true] at hm ⊢
  intro kv hkv
  exact hm kv (hperm.mem_iff.mp hkv)

/-! ### Claims C2, C3, C5 -/

/-- Claim C2 (amended): for a well-formed template (brace-free literal text
interleaved with placeholder tokens whose keys are nonempty and brace-free)
and a mapping with distinct nonempty brace-free keys and brace-free values:
the replacement loop computes the simultaneous substitution with each value
inserted verbatim as literal text (so tokens a value introduces are never
re-substituted), the result does not depend on the order of the mapping's
items, and no occurrence of any mapping key's token survives. -/
theorem c2_substitution (m : List (List Char × List Char)) (t : Tmpl)
    (ht : t.ok = true) (hm : mOk m = true) (hnd : (m.map Prod.fst).Nodup) :
    substitute m t.render = (t.psubst m).render
    ∧ (∀ m', m'.Perm m → substitute m' t.render = substitute m t.render)
    ∧ (∀ kv ∈ m, containsSub (tok kv.1) (substitute m t.render) = false) := by
  refine ⟨substitute_psubst ht hm, ?_, ?_⟩
  · intro m' hperm
    rw [substitute_psubst ht (mOk_perm hperm hm), substitute_psubst ht hm]
    have heq := psubst_congr (lookupL_perm hperm.symm hnd) t
    rw [heq]
  · intro kv hkv
    rw [substitute_psubst ht hm]
    obtain ⟨h1, h2, _⟩ := mOk_mem hm hkv
    apply render_no_tok h1 h2 (t.psubst m) (psubst_ok hm t ht)
    rw [psubst_holeKeys]
    intro hmem
    have := (List.mem_filter.mp hmem).2
    rw [lookupL_of_mem_nodup hnd (by simpa using hkv)] at this
    simp at this

/-- Witness for C2 on the template `\x7b\x7bx\x7d\x7d \x7b\x7by\x7d\x7d` and
the mapping `x ↦ 1, y ↦ 2`, also processed in the reverse order. -/
theorem c2_witness :
    tmplXY.ok = true ∧ mOk mXY = true ∧ (mXY.map Prod.fst).Nodup
    ∧ substitute mXY tmplXY.render = (tmplXY.psubst mXY).render
    ∧ substitute mXY.reverse tmplXY.render = substitute mXY tmplXY.render
    ∧ containsSub (tok ['x']) (substitute mXY tmplXY.render) = false := by
  refine ⟨by decide, by decide, by decide,
    (c2_substitution mXY tmplXY (by decide) (by decide) (by decide)).1,
    (c2_substitution mXY tmplXY (by decide) (by decide) (by decide)).2.1 mXY.reverse (by decide),
    ?_⟩
  have h := (c2_substitution mXY tmplXY (by decide) (by decide) (by decide)).2.2
    (['x'], ['1']) (by decide)
  exact h

/-- Counterexample to C2 as stated: with mapping `a ↦ \x7b\x7bb\x7d\x7d,
b ↦ X` the token the value of `a` introduces IS re-substituted, and the two
processing orders of the same items give different results. -/
theorem c2_counterexample :
    mSeq.Perm mSeqRev ∧ substitute mSeq (tok ['a']) ≠ substitute mSeqRev (tok ['a']) := by
  constructor
  · decide
  · have h1 : substitute mSeq (tok ['a']) = ['X'] := by
      simp +decide [substitute, replaceAll, tok, mSeq]
    have h2 : substitute mSeqRev (tok ['a']) = tok ['b'] := by
      simp +decide [substitute, replaceAll, tok, mSeqRev]
    rw [h1, h2]
    decide

/-- Claim C5 (amended): under the same well-formedness conditions as C2 (no
duplicate-freeness of keys needed), applying the replacement loop twice with
the same mapping gives the same text as applying it once. -/
theorem c5_idempotent (m : List (List Char × List Char)) (t : Tmpl)
    (ht : t.ok = true) (hm : mOk m = true) :
    substitute m (substitute m t.render) = substitute m t.render := by
  rw [substitute_psubst ht hm]
  rw [substitute_psubst (psubst_ok hm t ht) hm]
  have hnoop : (t.psubst m).psubst m = t.psubst m := by
    apply psubst_of_none
    intro k hk
    rw [psubst_holeKeys] at hk
    have := (List.mem_filter.mp hk).2
    cases hcase : lookupL k m with
    | none => rfl
    | some v => rw [hcase] at this; simp at this
  rw [hnoop]

/-- Witness for C5 on the template `\x7b\x7bx\x7d\x7d \x7b\x7by\x7d\x7d` and
the mapping `x ↦ 1`. -/
theorem c5_witness :
    tmplXY.ok = true ∧ mOk mX = true
    ∧ substitute mX (substitute mX tmplXY.render) = substitute mX tmplXY.render :=
  ⟨by decide, by decide, c5_idempotent mX tmplXY (by decide) (by decide)⟩

/-- Counterexample to C5 as stated: with mapping `a ↦ X, b ↦ \x7b\x7ba\x7d\x7d`
on template `\x7b\x7bb\x7d\x7d`, one pass yields `\x7b\x7ba\x7d\x7d` and a
second pass replaces it by `X`. -/
theorem c5_counterexample :
    substitute mIdem (substitute mIdem (tok ['b'])) ≠ substitute mIdem (tok ['b']) := by
  have h1 : substitute mIdem (tok ['b']) = tok ['a'] := by
    simp +decide [substitute, replaceAll, tok, mIdem]
  have h2 : substitute mIdem (tok ['a']) = ['X'] := by
    simp +decide [substitute, replaceAll, tok, mIdem]
  rw [h1, h2]
  decide

/-- Claim C3 (amended): for well-formed templates and mappings, the rendered
output is the template with every placeholder whose key is in the mapping
replaced by its value and the other tokens left verbatim (the simultaneous
substitution), and the tokens still found afterwards are exactly those whose
key has no match; the spec's example holds as stated: template
`\x7b\x7bx\x7d\x7d \x7b\x7by\x7d\x7d` with `x ↦ 1` renders to `1 \x7b\x7by\x7d\x7d`
with unresolved-token report exactly `\x7b\x7by\x7d\x7d`. -/
theorem c3_rendered_output :
    (∀ (m : List (List Char × List Char)) (t : Tmpl), t.ok = true → mOk m = true →
      substitute m t.render = (t.psubst m).render
      ∧ findTokens (substitute m t.render)
        = (t.holeKeys.filter (fun k => (lookupL k m).isNone)).map tok)
    ∧ substitute mX tmplXY.render = '1' :: ' ' :: tok ['y']
    ∧ report (substitute mX tmplXY.render) = [tok ['y']] := by
  refine ⟨?_, ?_, ?_⟩
  · intro m t ht hm
    refine ⟨substitute_psubst ht hm, ?_⟩
    rw [substitute_psubst ht hm, findTokens_render (t.psubst m) (psubst_ok hm t ht),
      psubst_holeKeys]
  · simp +decide [substitute, replaceAll, tok, mX, tmplXY, Tmpl.render]
  · have h : substitute mX tmplXY.render = '1' :: ' ' :: tok ['y'] := by
      simp +decide [substitute, replaceAll, tok, mX, tmplXY, Tmpl.render]
    rw [h]
    simp +decide [report, findTokens, tok, List.mergeSort]

/-- Witness for C3: the general part of the theorem evaluated on the spec's
own example. -/
theorem c3_witness :
    tmplXY.ok = true ∧ mOk mX = true
    ∧ substitute mX tmplXY.render = (tmplXY.psubst mX).render
    ∧ findTokens (substitute mX tmplXY.render)
      = (tmplXY.holeKeys.filter (fun k => (lookupL k mX).isNone)).map tok :=
  ⟨by decide, by decide,
    (c3_rendered_output.1 mX tmplXY (by decide) (by decide)).1,
    (c3_rendered_output.1 mX tmplXY (by decide) (by decide)).2⟩

/-- Counterexample to C3 as stated: with mapping `b ↦ \x7b\x7ba\x7d\x7d,
a ↦ X` on template `\x7b\x7bb\x7d\x7d`, the loop renders `X`, not the
template with its placeholder replaced by the value of `b` verbatim. -/
theorem c3_counterexample :
    substitute mHop ((Tmpl.hole ['b'] Tmpl.nil).render)
      ≠ ((Tmpl.hole ['b'] Tmpl.nil).psubst mHop).render := by
  have h1 : substitute mHop ((Tmpl.hole ['b'] Tmpl.nil).render) = ['X'] := by
    simp +decide [substitute, replaceAll, tok, mHop, Tmpl.render]
  have h2 : ((Tmpl.hole ['b'] Tmpl.nil).psubst mHop).render = tok ['a'] := by decide
  rw [h1, h2]
  decide

/-! ### Sorting and the shape of found tokens -/

lemma listCharLe_total : ∀ a b : List Char, (listCharLe a b || listCharLe b a) = true := by
  intro a
  induction a with
  | nil => intro b; simp [listCharLe]
  | cons x as ih =>
    intro b
    cases b with
    | nil => simp [listCharLe]
    | cons y bs =>
      by_cases hxy : x = y
      · subst hxy
        simp only [listCharLe, if_pos rfl]
        exact ih bs
      · rcases lt_or_gt_of_ne hxy with hlt | hgt
        · simp [listCharLe, if_neg hxy, hlt]
        · have hyx : y ≠ x := fun h => hxy h.symm
          simp [listCharLe, if_neg hxy, if_neg hyx, hgt]

lemma listCharLe_trans :
    ∀ a b c : List Char, listCharLe a b = true → listCharLe b c = true →
      listCharLe a c = true := by
  intro a
  induction a with
  | nil => intro b c _ _; simp [listCharLe]
  | cons x as ih =>
    intro b c h1 h2
    cases b with
    | nil => simp [listCharLe] at h1
    | cons y bs =>
      cases c with
      | nil => simp [listCharLe] at h2
      | cons z cs =>
        by_cases hxy : x = y <;> by_cases hyz : y = z
        · subst hxy; subst hyz
          simp only [listCharLe, if_pos rfl] at h1 h2 ⊢
          exact ih bs cs h1 h2
        · subst hxy
          simp only [listCharLe, if_pos rfl] at h1
          simp only [listCharLe, if_neg hyz, decide_eq_true_eq] at h2 ⊢
          exact h2
        · subst hyz
          simp only [listCharLe, if_neg hxy, decide_eq_true_eq] at h1 ⊢
          exact h1
        · simp only [listCharLe, if_neg hxy, if_neg hyz, decide_eq_true_eq] at h1 h2
          have hxz : x < z := lt_trans h1 h2
          have hne : x ≠ z := ne_of_lt hxz
          simp only [listCharLe, if_neg hne, decide_eq_true_eq]
          exact hxz

lemma report_nodup (s : List Char) : (report s).Nodup :=
  ((List.mergeSort_perm (findTokens s).dedup listCharLe).nodup_iff).mpr (List.nodup_dedup _)

lemma report_sorted (s : List Char) :
    List.Pairwise (fun a b => listCharLe a b = true) (report s) :=
  List.sorted_mergeSort listCharLe_trans listCharLe_total _

lemma report_mem (s x : List Char) : x ∈ report s ↔ x ∈ findTokens s :=
  ((List.mergeSort_perm (findTokens s).dedup listCharLe).mem_iff).trans List.mem_dedup

lemma findTokens_shape :
    ∀ s : List Char, ∀ t ∈ findTokens s,
      ∃ interior, interior ≠ [] ∧ (∀ c ∈ interior, c ≠ '}') ∧ t = tok interior := by
  intro s
  induction s using findTokens.induct with
  | case1 rest interior hcond ih =>
    intro t ht
    have hcond' : (rest.takeWhile (fun c => !(c == '}'))).isEmpty = false
        ∧ ((rest.drop ((rest.takeWhile (fun c => !(c == '}'))).length)).take 2 = ['}', '}']) :=
      hcond
    have ih' : ∀ t' ∈ findTokens
        (rest.drop ((rest.takeWhile (fun c => !(c == '}'))).length + 2)),
        ∃ interior, interior ≠ [] ∧ (∀ c ∈ interior, c ≠ '}') ∧ t' = tok interior := ih
    have heq : findTokens ('{' :: '{' :: rest)
        = ('{' :: '{' :: ((rest.takeWhile (fun c => !(c == '}'))) ++ ['}', '}']))
          :: findTokens (rest.drop ((rest.takeWhile (fun c => !(c == '}'))).length + 2)) := by
      rw [findTokens.eq_def]
      simp only
      rw [if_pos hcond']
    rw [heq] at ht
    rcases List.mem_cons.mp ht with rfl | htail
    · refine ⟨rest.takeWhile (fun c => !(c == '}')), ?_, ?_, by simp [tok]⟩
      · intro hcontra
        rw [hcontra] at hcond'
        simp at hcond'
      · intro c hc
        have := List.mem_takeWhile_imp hc
        simpa using this
    · exact ih' t htail
  | case2 rest interior hcond ih =>
    intro t ht
    have hcond' : ¬((rest.takeWhile (fun c => !(c == '}'))).isEmpty = false
        ∧ ((rest.drop ((rest.takeWhile (fun c => !(c == '}'))).length)).take 2 = ['}', '}'])) :=
      hcond
    have heq : findTokens ('{' :: '{' :: rest) = findTokens ('{' :: rest) := by
      rw [findTokens.eq_def]
      simp only
      rw [if_neg hcond']
    rw [heq] at ht
    exact ih t ht
  | case3 hd rest hne ih =>
    intro t ht
    have heq : findTokens (hd :: rest) = findTokens rest := by
      rw [findTokens.eq_def]
      split
      · next rest1 heq2 =>
        exfalso
        simp only [List.cons.injEq] at heq2
        exact hne _ heq2.1 heq2.2
      · next x rest1 heq2 =>
        simp only [List.cons.injEq] at heq2
        rw [heq2.2]
      · next heq2 => simp at heq2
    rw [heq] at ht
    exact ih t ht
  | case4 =>
    intro t ht
    rw [findTokens_nil] at ht
    simp at ht

/-! ### Claim C10 -/

/-- Claim C10: every token the scan reports has the form
`\x7b\x7b` + interior + `\x7d\x7d` with nonempty interior free of `\x7d`;
a literal `\x7b\x7b\x7d\x7d` is never reported, nor is the token of any key
containing `\x7d`. -/
theorem c10_token_shape :
    (∀ s : List Char, ∀ t ∈ findTokens s,
      ∃ interior, interior ≠ [] ∧ (∀ c ∈ interior, c ≠ '}') ∧ t = tok interior)
    ∧ findTokens (tok []) = []
    ∧ (∀ s k : List Char, '}' ∈ k → tok k ∉ findTokens s) := by
  refine ⟨findTokens_shape, ?_, ?_⟩
  · simp +decide [findTokens, tok]
  · intro s k hk hmem
    obtain ⟨interior, hne, hchars, heq⟩ := findTokens_shape s (tok k) hmem
    have hki : k = interior := by
      simp only [tok, List.cons.injEq, true_and] at heq
      exact List.append_cancel_right heq
    exact hchars '}' (hki ▸ hk) rfl

/-- Witness for C10: the scan on `\x7b\x7by\x7d\x7d` reports that very token
with interior `y`, and the token of the key `\x7d` is reported nowhere in
`\x7b\x7b\x7d\x7d\x7d`. -/
theorem c10_witness :
    (tok ['y'] ∈ findTokens (tok ['y']))
    ∧ (∃ interior, interior ≠ [] ∧ (∀ c ∈ interior, c ≠ '}') ∧ tok ['y'] = tok interior)
    ∧ ('}' ∈ (['}'] : List Char))
    ∧ tok ['}'] ∉ findTokens (tok ['}']) := by
  have hmem : tok ['y'] ∈ findTokens (tok ['y']) := by
    simp +decide [findTokens, tok]
  refine ⟨hmem, c10_token_shape.1 (tok ['y']) (tok ['y']) hmem, by decide,
    c10_token_shape.2.2 (tok ['}']) ['}'] (by decide)⟩

/-! ### Claims C6, C7, C8 -/

/-- Claim C6: a missing configuration resource fails the run with
`ConfigNotFound` before the template is even considered, and a present
configuration with a missing template fails with `TemplateNotFound`; in both
cases the trace is empty, so nothing is written. -/
theorem c6_validation :
    ∀ (env : Env) (slug : String),
      (env.configs slug = none → run env slug = ([], some RunError.ConfigNotFound))
      ∧ (∀ config, env.configs slug = some config → env.templateText = none →
          run env slug = ([], some RunError.TemplateNotFound)) := by
  intro env slug
  constructor
  · intro h
    simp [run, h]
  · intro config h1 h2
    simp [run, h1, h2]

/-- Witness for C6: a concrete environment without configurations, and one
with configurations but no template. -/
theorem c6_witness :
    envNone.configs "nope" = none
    ∧ run envNone "nope" = ([], some RunError.ConfigNotFound)
    ∧ envNoTmpl.configs "acme" = some exGood
    ∧ envNoTmpl.templateText = none
    ∧ run envNoTmpl "acme" = ([], some RunError.TemplateNotFound) :=
  ⟨rfl, (c6_validation envNone "nope").1 rfl, rfl, rfl,
    (c6_validation envNoTmpl "acme").2 exGood rfl rfl⟩

/-- Claim C7: when the rendered page still contains placeholder tokens, the
run does not fail, it emits one warning event carrying the report — each
distinct unresolved token exactly once, in sorted order — and it still
writes the output page. -/
theorem c7_unresolved_warning :
    ∀ (env : Env) (slug : String) (config : EntryList) (tmpl : List Char),
      env.configs slug = some config → env.templateText = some tmpl →
      findTokens (renderOf config tmpl) ≠ [] →
      (run env slug).2 = none
      ∧ Event.warnUnresolved (report (renderOf config tmpl)) ∈ (run env slug).1
      ∧ Event.writeFile (outPath slug) (renderOf config tmpl) ∈ (run env slug).1
      ∧ (report (renderOf config tmpl)).Nodup
      ∧ List.Pairwise (fun a b => listCharLe a b = true) (report (renderOf config tmpl))
      ∧ (∀ x, x ∈ report (renderOf config tmpl) ↔ x ∈ findTokens (renderOf config tmpl)) := by
  intro env slug config tmpl h1 h2 hrem
  have hempty : (findTokens (renderOf config tmpl)).isEmpty = false := by
    cases hcase : findTokens (renderOf config tmpl) with
    | nil => exact absurd hcase hrem
    | cons x xs => rfl
  have hrun : run env slug
      = ([Event.warnUnresolved (report (renderOf config tmpl)),
          Event.writeFile (outPath slug) (renderOf config tmpl)]
          ++ (if env.audioSrc slug then [Event.copyAudio slug] else [Event.noteNoAudio slug]),
        none) := by
    simp [run, h1, h2, hempty]
  rw [hrun]
  refine ⟨rfl, by simp, by simp, report_nodup _, report_sorted _, fun x => report_mem _ x⟩

/-- Witness for C7: in `envW` the template is the unmatched token
`\x7b\x7by\x7d\x7d`, which survives substitution, is warned about, and the
page is still written. -/
theorem c7_witness :
    envW.configs "acme" = some exGood
    ∧ envW.templateText = some (tok ['y'])
    ∧ findTokens (renderOf exGood (tok ['y'])) ≠ []
    ∧ (run envW "acme").2 = none
    ∧ Event.warnUnresolved (report (renderOf exGood (tok ['y']))) ∈ (run envW "acme").1
    ∧ Event.writeFile (outPath "acme") (renderOf exGood (tok ['y'])) ∈ (run envW "acme").1 := by
  have hflat : flatten exGood "" = [("brand.primary", "#fff"), ("name", "Acme")] := by
    decide
  have hrender : renderOf exGood (tok ['y']) = tok ['y'] := by
    rw [renderOf, hflat]
    simp +decide [toPairsChars, substitute, replaceAll, tok]
  have hne : findTokens (renderOf exGood (tok ['y'])) ≠ [] := by
    rw [hrender]
    simp +decide [findTokens, tok]
  have h := c7_unresolved_warning envW "acme" exGood (tok ['y']) rfl rfl hne
  exact ⟨rfl, rfl, hne, h.1, h.2.1, h.2.2.1⟩

lemma writtenPage_run (env : Env) (slug : String) :
    writtenPage (run env slug)
      = match env.configs slug, env.templateText with
        | some config, some tmpl => some (renderOf config tmpl)
        | _, _ => none := by
  cases hc : env.configs slug with
  | none => simp [run, writtenPage, hc]
  | some config =>
    cases ht : env.templateText with
    | none => simp [run, writtenPage, hc, ht]
    | some tmpl =>
      by_cases hw : (findTokens (renderOf config tmpl)).isEmpty
      · by_cases ha : env.audioSrc slug <;>
          simp [run, writtenPage, hc, ht, hw, ha]
      · have hw' : (findTokens (renderOf config tmpl)).isEmpty = false := by
          simpa using hw
        by_cases ha : env.audioSrc slug <;>
          simp [run, writtenPage, hc, ht, hw', ha]

/-- Claim C8: the output page text is a function of the client's
configuration document and the template text alone — two environments that
agree on those produce byte-for-byte the same written page, whatever else
(audio directories, other clients' configurations) differs. -/
theorem c8_deterministic :
    ∀ (env1 env2 : Env) (slug : String),
      env1.configs slug = env2.configs slug →
      env1.templateText = env2.templateText →
      writtenPage (run env1 slug) = writtenPage (run env2 slug) := by
  intro env1 env2 slug h1 h2
  rw [writtenPage_run, writtenPage_run, h1, h2]

/-- Witness for C8: `envW` and `envW2` differ in audio directories but share
configuration and template, and the written page is identical. -/
theorem c8_witness :
    envW.configs "acme" = envW2.configs "acme"
    ∧ envW.templateText = envW2.templateText
    ∧ envW.audioSrc "acme" ≠ envW2.audioSrc "acme"
    ∧ writtenPage (run envW "acme") = writtenPage (run envW2 "acme") :=
  ⟨rfl, rfl, by decide, c8_deterministic envW envW2 "acme" rfl rfl⟩

end PitchDecks
